import Mathlib

/-!
# Verification of the `lsai` directory-summarization core

Shallow embedding of `src/main.rs` of the `lsai` CLI tool: the Entry
Collector (`collect_dir`) and the Summary Builder (`build_summary`),
together with proofs of the specification's claims about them.

Strings are modelled by Lean `String` (the Rust code converts entry names
with `to_string_lossy`, so names are ordinary Unicode strings); `u32`/`u64`
counters and sizes are modelled by `Nat` (Rust panics on `u32` overflow in
debug builds, and directory listings never approach `2^32` entries, so
wrap-around is not modelled).  Rust's `str::to_lowercase` is modelled by
ASCII case mapping (`strLower` below), which agrees with Rust on all the
ASCII-only names the rules compare against.  Timestamps (`SystemTime`)
are opaque and modelled by `Nat`.
-/

namespace Lsai

/-- Filesystem errors (`std::io::Error`), modelled as opaque messages. -/
abbrev IoErr := String

/-- Rust `struct FileInfo` from src/main.rs: one collected directory entry. -/
structure FileInfo where
  name : String
  is_dir : Bool
  extension : Option String
  size : Option Nat
  modified : Option Nat
  is_hidden : Bool
deriving Repr, DecidableEq

/-- Rust `struct Counts` from src/main.rs. -/
structure Counts where
  total_entries : Nat
  files : Nat
  dirs : Nat
  hidden : Nat
deriving Repr, DecidableEq

/-- Rust `struct NotableFiles` from src/main.rs. -/
structure NotableFiles where
  has_git : Bool
  has_readme : Bool
  has_license : Bool
  has_dockerfile : Bool
  has_ci : Bool
  has_rust : Bool
  has_node : Bool
  has_python : Bool
deriving Repr, DecidableEq

/-- Rust `struct SizeEntry` from src/main.rs. -/
structure SizeEntry where
  name : String
  bytes : Nat
deriving Repr, DecidableEq

/-- Rust `struct DirSummary` from src/main.rs.  `language_hints` is a
`BTreeMap<String, u32>` in the source, modelled as an association list kept
strictly sorted by key (which is exactly the B-tree's iteration order). -/
structure DirSummary where
  path : String
  counts : Counts
  language_hints : List (String × Nat)
  notable_files : NotableFiles
  suspicious : List String
  top_file_by_size : List SizeEntry
deriving Repr, DecidableEq

/-! ## String primitives

Rust's `str` operations used by the core, modelled on the character lists
underlying Lean strings (for the valid UTF-8 strings produced by
`to_string_lossy`, byte-wise prefix/suffix/order tests agree with
character-wise ones). -/

/-- Rust's `str::to_lowercase`, restricted to ASCII case mapping (all the
names the Builder's rules compare against are ASCII). -/
def strLower (s : String) : String := String.mk (s.data.map Char.toLower)

/-- Rust's `str::starts_with(pre)`. -/
def strStartsWith (s pre : String) : Bool := pre.data.isPrefixOf s.data

/-- Rust's `str::ends_with(post)`. -/
def strEndsWith (s post : String) : Bool := post.data.isSuffixOf s.data

/-- Rust's `str::contains(pat)` on character lists: some contiguous run of
`l` starts with `pat`. -/
def containsSub : List Char → List Char → Bool
  | [], pat => pat.isEmpty
  | c :: t, pat => pat.isPrefixOf (c :: t) || containsSub t pat

/-- Rust's `str::contains(pat)`. -/
def containsStr (s pat : String) : Bool := containsSub s.data pat.data

/-- Lexicographic comparison of character lists by code point; for UTF-8
encoded strings this is exactly Rust's byte-wise `Ord` on `String`, the
order of the `BTreeMap` keys. -/
def ltChars : List Char → List Char → Bool
  | _, [] => false
  | [], _ :: _ => true
  | a :: as, b :: bs =>
    if a.toNat < b.toNat then true
    else if b.toNat < a.toNat then false
    else ltChars as bs

/-- Rust's `String` strict order (`Ord::cmp` returning `Less`). -/
def strLt (a b : String) : Bool := ltChars a.data b.data

/-! ## The Entry Collector (`collect_dir`) -/

/-- The metadata the collector reads for one child
(`entry.metadata()` in src/main.rs): file-type flags, length, and
best-effort modification time (`metadata.modified().ok()`). -/
structure Metadata where
  is_dir : Bool
  is_file : Bool
  len : Nat
  modified : Option Nat
deriving Repr, DecidableEq

/-- One item yielded by `fs::read_dir`: either an error (the `entry?` step
fails) or a name paired with the result of reading its metadata (the
`entry.metadata()?` step may fail). -/
abbrev RawItem := Except IoErr (String × Except IoErr Metadata)

/-- The position of the last `.` in a list of characters (`rposition` on
bytes in Rust's `split_file_at_dot`; for valid UTF-8, byte search and
character search for `.` agree). -/
def lastDotPos : List Char → Option Nat
  | [] => none
  | c :: t =>
    match lastDotPos t with
    | some i => some (i + 1)
    | none => if c = '.' then some 0 else none

/-- Rust's `Path::new(&file_name).extension()` for a single-component file
name: `None` for `".."` (a parent-directory path component has no file
name), `None` when there is no `.` past the first character, otherwise the
portion after the last such `.` (possibly empty, e.g. for `"foo."`).
A leading dot is ignored, so `".env"` has no extension. -/
def rustExtension (name : String) : Option String :=
  let cs := name.data
  if cs = ['.', '.'] then none
  else
    match lastDotPos (cs.drop 1) with
    | none => none
    | some i => some (String.mk (cs.drop (i + 2)))

/-- The per-entry body of the `for entry in fs::read_dir(path)?` loop in
`collect_dir`, once both fallible steps have succeeded: builds the
`FileInfo` record pushed onto `results`. -/
def collectEntry (file_name : String) (metadata : Metadata) : FileInfo :=
  { name := file_name
    is_dir := metadata.is_dir
    extension := rustExtension file_name
    size := if metadata.is_file then some metadata.len else none
    modified := metadata.modified
    is_hidden := strStartsWith file_name "." }

/-- The collection loop of `collect_dir`: each `?` aborts the whole loop
with the first error; otherwise every entry is materialized, in order. -/
def collectLoop : List RawItem → Except IoErr (List FileInfo)
  | [] => .ok []
  | .error e :: _ => .error e
  | .ok (_, .error e) :: _ => .error e
  | .ok (file_name, .ok metadata) :: rest =>
    match collectLoop rest with
    | .error e => .error e
    | .ok results => .ok (collectEntry file_name metadata :: results)

/-- Function `collect_dir`: `fs::read_dir(path)?` either fails to open the
directory (the `listing` argument is the filesystem's response) or yields
the sequence of raw items processed by the loop. -/
def collect_dir (listing : Except IoErr (List RawItem)) :
    Except IoErr (List FileInfo) :=
  match listing with
  | .error e => .error e
  | .ok items => collectLoop items

/-! ## The Summary Builder (`build_summary`) -/

/-- First suspicious-file rule of `build_summary` (applied to the
lower-cased name): `lower == ".env" || lower.ends_with(".pem") ||
lower.contains("id_rsa")`. -/
def ruleA (lower : String) : Bool :=
  lower == ".env" || strEndsWith lower ".pem" || containsStr lower "id_rsa"

/-- Second suspicious-file rule of `build_summary` (applied to the
lower-cased name): `lower.ends_with(".log") || lower.ends_with(".dump") ||
lower.ends_with(".sql")`. -/
def ruleB (lower : String) : Bool :=
  strEndsWith lower ".log" || strEndsWith lower ".dump" || strEndsWith lower ".sql"

/-- Rust `*ext_counts.entry(ext.to_lowercase()).or_insert(0) += 1` on a
`BTreeMap<String, u32>`: ordered insert into the strictly-key-sorted
association list (the key is already lower-cased by the caller). -/
def insertCount : List (String × Nat) → String → List (String × Nat)
  | [], k => [(k, 1)]
  | (k', v) :: t, k =>
    if strLt k k' then (k, 1) :: (k', v) :: t
    else if k = k' then (k', v + 1) :: t
    else (k', v) :: insertCount t k

/-- The mutable state of `build_summary`'s single pass: one field per
`let mut` variable in the source. -/
structure BuildState where
  total_entries : Nat
  files_count : Nat
  dirs_count : Nat
  hidden_count : Nat
  ext_counts : List (String × Nat)
  has_git : Bool
  has_readme : Bool
  has_license : Bool
  has_dockerfile : Bool
  has_ci : Bool
  has_rust : Bool
  has_node : Bool
  has_python : Bool
  suspicious : List String
  size_entries : List SizeEntry
deriving Repr, DecidableEq

/-- The initial values of `build_summary`'s mutable variables. -/
def initState : BuildState :=
  { total_entries := 0, files_count := 0, dirs_count := 0, hidden_count := 0
    ext_counts := []
    has_git := false, has_readme := false, has_license := false
    has_dockerfile := false, has_ci := false, has_rust := false
    has_node := false, has_python := false
    suspicious := [], size_entries := [] }

/-- The body of `build_summary`'s `for f in files` loop, written with one
record field per mutable variable (each variable's update reads only that
variable and the entry `f`, so the imperative body is exactly this record
update).  The two suspicious-rule `if`s both push, in order, so a name can
be appended twice. -/
def stepEntry (s : BuildState) (f : FileInfo) : BuildState :=
  let total := s.total_entries + 1
  let hidden := if f.is_hidden then s.hidden_count + 1 else s.hidden_count
  if f.is_dir then
    { s with
      total_entries := total
      hidden_count := hidden
      dirs_count := s.dirs_count + 1
      has_ci := if f.name = ".github" then true else s.has_ci
      has_git := if f.name = ".git" then true else s.has_git }
  else
    let lower := strLower f.name
    { s with
      total_entries := total
      hidden_count := hidden
      files_count := s.files_count + 1
      ext_counts :=
        match f.extension with
        | some ext => insertCount s.ext_counts (strLower ext)
        | none => s.ext_counts
      size_entries :=
        match f.size with
        | some sz => s.size_entries ++ [{ name := f.name, bytes := sz }]
        | none => s.size_entries
      has_readme :=
        if lower == "readme" || strStartsWith lower "readme." then true
        else s.has_readme
      has_license :=
        if lower == "license" || strStartsWith lower "license." then true
        else s.has_license
      has_dockerfile := if lower == "dockerfile" then true else s.has_dockerfile
      has_rust := if lower == "cargo.toml" then true else s.has_rust
      has_node := if lower == "package.json" then true else s.has_node
      has_python :=
        if lower == "pyproject.toml" || lower == "requirement.txt" then true
        else s.has_python
      suspicious :=
        s.suspicious
          ++ (if ruleA lower then [f.name] else [])
          ++ (if ruleB lower then [f.name] else []) }

/-- The comparator of `size_entries.sort_by(|a, b| b.bytes.cmp(&a.bytes))`:
`a` may come before `b` when `b.bytes <= a.bytes` (descending order;
`sort_by` is a stable sort, as is `List.mergeSort`). -/
def sortLe (a b : SizeEntry) : Bool := decide (b.bytes ≤ a.bytes)

/-- Function `build_summary(path, files)`: one pass over the entries followed by the
stable descending sort and `truncate(5)` of the size candidates. -/
def build_summary (path : String) (files : List FileInfo) : DirSummary :=
  let st := files.foldl stepEntry initState
  { path := path
    counts :=
      { total_entries := st.total_entries
        files := st.files_count
        dirs := st.dirs_count
        hidden := st.hidden_count }
    language_hints := st.ext_counts
    notable_files :=
      { has_git := st.has_git
        has_readme := st.has_readme
        has_license := st.has_license
        has_dockerfile := st.has_dockerfile
        has_ci := st.has_ci
        has_rust := st.has_rust
        has_node := st.has_node
        has_python := st.has_python }
    suspicious := st.suspicious
    top_file_by_size := (st.size_entries.mergeSort sortLe).take 5 }

/-- Function `main`'s core pipeline: `collect_dir(&path)?` followed by
`build_summary(&path, &files)`; on collection failure the `?` propagates
the error and the Builder is never reached. -/
def main_core (path : String) (listing : Except IoErr (List RawItem)) :
    Except IoErr DirSummary :=
  match collect_dir listing with
  | .error e => .error e
  | .ok files => .ok (build_summary path files)

/-! ## Observations

Per-entry observation functions: what a single entry contributes to each
derived field of the summary.  Used to state the claims. -/

/-- What the loop body appends to `suspicious` for one entry: nothing for
a directory, and one copy of the original (not lower-cased) name per
matching rule for a file — two copies when both rules match. -/
def suspOf (f : FileInfo) : List String :=
  if f.is_dir then []
  else
    (if ruleA (strLower f.name) then [f.name] else [])
      ++ (if ruleB (strLower f.name) then [f.name] else [])

/-- The size candidate one entry contributes: files with a known size
only. -/
def sizeCandOf (f : FileInfo) : Option SizeEntry :=
  if f.is_dir then none
  else f.size.map fun sz => { name := f.name, bytes := sz }

/-- The `language_hints` key one entry contributes: the lower-cased
extension, for files that have an extension. -/
def extKeyOf (f : FileInfo) : Option String :=
  if f.is_dir then none else f.extension.map strLower

/-- Whether one entry sets `has_python`. -/
def pythonFlagOf (f : FileInfo) : Bool :=
  !f.is_dir &&
    (strLower f.name == "pyproject.toml" || strLower f.name == "requirement.txt")

/-- Whether one entry sets `has_git`. -/
def gitFlagOf (f : FileInfo) : Bool := f.is_dir && f.name == ".git"

/-- Whether one entry sets `has_ci`. -/
def ciFlagOf (f : FileInfo) : Bool := f.is_dir && f.name == ".github"

/-- Sum of the counter values of a `language_hints` table. -/
def sumVals (m : List (String × Nat)) : Nat := (m.map Prod.snd).sum

/-- The counter stored for key `k` (0 when absent); on key-sorted lists
this is the `BTreeMap` lookup. -/
def getCount : List (String × Nat) → String → Nat
  | [], _ => 0
  | (k', v) :: t, k => if k = k' then v else getCount t k

/-- Two `FileInfo`s that agree on everything the Builder reads — only the
`modified` timestamp may differ. -/
def agreesExceptModified (f g : FileInfo) : Prop :=
  f.name = g.name ∧ f.is_dir = g.is_dir ∧ f.extension = g.extension ∧
    f.size = g.size ∧ f.is_hidden = g.is_hidden

/-! ## The key order used by the `BTreeMap` model -/

theorem ltChars_iff : ∀ as bs : List Char,
    ltChars as bs = true ↔ List.Lex (· < ·) as bs
  | _ :: _, [] => by simp [ltChars]
  | [], [] => by simp [ltChars]
  | [], _ :: _ => by
    simp only [ltChars, true_iff]
    exact List.Lex.nil
  | a :: as, b :: bs => by
    rw [ltChars]
    split
    · rename_i h
      simp only [true_iff]
      exact List.Lex.rel (Char.lt_def.mpr h)
    · split
      · rename_i h1 h2
        simp only [Bool.false_eq_true, false_iff]
        intro hlex
        cases hlex with
        | cons h => omega
        | rel h => exact h1 (Char.lt_def.mp h)
      · rename_i h1 h2
        have hab : a = b := by
          have : a.toNat = b.toNat := by omega
          exact Char.eq_of_val_eq (UInt32.toNat.inj this)
        subst hab
        rw [ltChars_iff as bs]
        exact (List.Lex.cons_iff).symm

theorem strLt_iff (a b : String) : strLt a b = true ↔ a < b := by
  rw [strLt, ltChars_iff, String.lt_iff_toList_lt]
  rfl

theorem lt_of_strLt_false {a b : String} (h : strLt a b = false) (hne : a ≠ b) :
    b < a := by
  rcases lt_trichotomy a b with hab | hab | hab
  · exact absurd ((strLt_iff a b).mpr hab) (by simp [h])
  · exact absurd hab hne
  · exact hab

/-! ## Per-field characterization of the loop body -/

theorem stepEntry_total (s : BuildState) (f : FileInfo) :
    (stepEntry s f).total_entries = s.total_entries + 1 := by
  simp only [stepEntry]
  split <;> rfl

theorem stepEntry_hidden (s : BuildState) (f : FileInfo) :
    (stepEntry s f).hidden_count =
      s.hidden_count + (if f.is_hidden then 1 else 0) := by
  simp only [stepEntry]
  split <;> split <;> rfl

theorem stepEntry_files (s : BuildState) (f : FileInfo) :
    (stepEntry s f).files_count =
      s.files_count + (if f.is_dir then 0 else 1) := by
  simp only [stepEntry]
  split <;> rfl

theorem stepEntry_dirs (s : BuildState) (f : FileInfo) :
    (stepEntry s f).dirs_count =
      s.dirs_count + (if f.is_dir then 1 else 0) := by
  simp only [stepEntry]
  split <;> rfl

theorem stepEntry_ext_counts (s : BuildState) (f : FileInfo) :
    (stepEntry s f).ext_counts =
      match extKeyOf f with
      | some k => insertCount s.ext_counts k
      | none => s.ext_counts := by
  cases hdir : f.is_dir <;> simp only [stepEntry, extKeyOf, hdir] <;>
    cases f.extension <;> simp

theorem stepEntry_size_entries (s : BuildState) (f : FileInfo) :
    (stepEntry s f).size_entries = s.size_entries ++ (sizeCandOf f).toList := by
  cases hdir : f.is_dir <;> simp only [stepEntry, sizeCandOf, hdir] <;>
    cases f.size <;> simp

theorem stepEntry_suspicious (s : BuildState) (f : FileInfo) :
    (stepEntry s f).suspicious = s.suspicious ++ suspOf f := by
  cases hdir : f.is_dir <;> simp [stepEntry, suspOf, hdir]

theorem stepEntry_has_python (s : BuildState) (f : FileInfo) :
    (stepEntry s f).has_python = (s.has_python || pythonFlagOf f) := by
  cases hdir : f.is_dir <;>
    by_cases h1 : strLower f.name = "pyproject.toml" <;>
    by_cases h2 : strLower f.name = "requirement.txt" <;>
    simp [stepEntry, pythonFlagOf, hdir, h1, h2]

theorem stepEntry_has_git (s : BuildState) (f : FileInfo) :
    (stepEntry s f).has_git = (s.has_git || gitFlagOf f) := by
  cases hdir : f.is_dir <;> by_cases h : f.name = ".git" <;>
    simp [stepEntry, gitFlagOf, hdir, h]

theorem stepEntry_has_ci (s : BuildState) (f : FileInfo) :
    (stepEntry s f).has_ci = (s.has_ci || ciFlagOf f) := by
  cases hdir : f.is_dir <;> by_cases h : f.name = ".github" <;>
    simp [stepEntry, ciFlagOf, hdir, h]

/-! ## Characterization of the whole pass -/

theorem foldl_total (fs : List FileInfo) : ∀ s : BuildState,
    (fs.foldl stepEntry s).total_entries = s.total_entries + fs.length := by
  induction fs with
  | nil => intro s; simp
  | cons f t ih =>
    intro s
    simp only [List.foldl_cons, ih, stepEntry_total, List.length_cons]
    omega

theorem foldl_hidden (fs : List FileInfo) : ∀ s : BuildState,
    (fs.foldl stepEntry s).hidden_count =
      s.hidden_count + fs.countP (fun f => f.is_hidden) := by
  induction fs with
  | nil => intro s; simp
  | cons f t ih =>
    intro s
    simp only [List.foldl_cons, ih, stepEntry_hidden, List.countP_cons]
    cases hf : f.is_hidden <;> simp <;> omega

theorem foldl_files (fs : List FileInfo) : ∀ s : BuildState,
    (fs.foldl stepEntry s).files_count =
      s.files_count + fs.countP (fun f => !f.is_dir) := by
  induction fs with
  | nil => intro s; simp
  | cons f t ih =>
    intro s
    simp only [List.foldl_cons, ih, stepEntry_files, List.countP_cons]
    cases hf : f.is_dir <;> simp <;> omega

theorem foldl_dirs (fs : List FileInfo) : ∀ s : BuildState,
    (fs.foldl stepEntry s).dirs_count =
      s.dirs_count + fs.countP (fun f => f.is_dir) := by
  induction fs with
  | nil => intro s; simp
  | cons f t ih =>
    intro s
    simp only [List.foldl_cons, ih, stepEntry_dirs, List.countP_cons]
    cases hf : f.is_dir <;> simp <;> omega

theorem foldl_suspicious (fs : List FileInfo) : ∀ s : BuildState,
    (fs.foldl stepEntry s).suspicious = s.suspicious ++ fs.flatMap suspOf := by
  induction fs with
  | nil => intro s; simp
  | cons f t ih =>
    intro s
    simp [List.foldl_cons, ih, stepEntry_suspicious]

theorem foldl_size_entries (fs : List FileInfo) : ∀ s : BuildState,
    (fs.foldl stepEntry s).size_entries =
      s.size_entries ++ fs.filterMap sizeCandOf := by
  induction fs with
  | nil => intro s; simp
  | cons f t ih =>
    intro s
    simp only [List.foldl_cons, ih, stepEntry_size_entries, List.filterMap_cons]
    cases h : sizeCandOf f <;> simp

theorem foldl_ext_counts (fs : List FileInfo) : ∀ s : BuildState,
    (fs.foldl stepEntry s).ext_counts =
      (fs.filterMap extKeyOf).foldl insertCount s.ext_counts := by
  induction fs with
  | nil => intro s; simp
  | cons f t ih =>
    intro s
    simp only [List.foldl_cons, ih, stepEntry_ext_counts, List.filterMap_cons]
    cases h : extKeyOf f <;> simp

theorem foldl_has_python (fs : List FileInfo) : ∀ s : BuildState,
    (fs.foldl stepEntry s).has_python = (s.has_python || fs.any pythonFlagOf) := by
  induction fs with
  | nil => intro s; simp
  | cons f t ih =>
    intro s
    simp [List.foldl_cons, ih, stepEntry_has_python, Bool.or_assoc]

theorem foldl_has_git (fs : List FileInfo) : ∀ s : BuildState,
    (fs.foldl stepEntry s).has_git = (s.has_git || fs.any gitFlagOf) := by
  induction fs with
  | nil => intro s; simp
  | cons f t ih =>
    intro s
    simp [List.foldl_cons, ih, stepEntry_has_git, Bool.or_assoc]

theorem foldl_has_ci (fs : List FileInfo) : ∀ s : BuildState,
    (fs.foldl stepEntry s).has_ci = (s.has_ci || fs.any ciFlagOf) := by
  induction fs with
  | nil => intro s; simp
  | cons f t ih =>
    intro s
    simp [List.foldl_cons, ih, stepEntry_has_ci, Bool.or_assoc]

theorem build_summary_counts (path : String) (fs : List FileInfo) :
    (build_summary path fs).counts =
      { total_entries := fs.length
        files := fs.countP fun f => !f.is_dir
        dirs := fs.countP fun f => f.is_dir
        hidden := fs.countP fun f => f.is_hidden } := by
  simp [build_summary, foldl_total, foldl_files, foldl_dirs, foldl_hidden,
    initState]

theorem build_summary_suspicious (path : String) (fs : List FileInfo) :
    (build_summary path fs).suspicious = fs.flatMap suspOf := by
  simp [build_summary, foldl_suspicious, initState]

theorem build_summary_language_hints (path : String) (fs : List FileInfo) :
    (build_summary path fs).language_hints =
      (fs.filterMap extKeyOf).foldl insertCount [] := by
  simp [build_summary, foldl_ext_counts, initState]

theorem build_summary_top (path : String) (fs : List FileInfo) :
    (build_summary path fs).top_file_by_size =
      ((fs.filterMap sizeCandOf).mergeSort sortLe).take 5 := by
  simp [build_summary, foldl_size_entries, initState]

theorem build_summary_has_python (path : String) (fs : List FileInfo) :
    (build_summary path fs).notable_files.has_python = fs.any pythonFlagOf := by
  simp [build_summary, foldl_has_python, initState]

theorem build_summary_has_git (path : String) (fs : List FileInfo) :
    (build_summary path fs).notable_files.has_git = fs.any gitFlagOf := by
  simp [build_summary, foldl_has_git, initState]

theorem build_summary_has_ci (path : String) (fs : List FileInfo) :
    (build_summary path fs).notable_files.has_ci = fs.any ciFlagOf := by
  simp [build_summary, foldl_has_ci, initState]

/-! ## Shape of collected entries -/

theorem collectLoop_ok_mem : ∀ {l : List RawItem} {fis : List FileInfo},
    collectLoop l = .ok fis → ∀ fi ∈ fis, ∃ nm md, fi = collectEntry nm md := by
  intro l
  induction l with
  | nil =>
    intro fis h fi hfi
    simp only [collectLoop] at h
    cases h
    cases hfi
  | cons it t ih =>
    intro fis h fi hfi
    match it with
    | .error e => simp [collectLoop] at h
    | .ok (nm, .error e) => simp [collectLoop] at h
    | .ok (nm, .ok md) =>
      rw [collectLoop] at h
      cases hrec : collectLoop t with
      | error e => rw [hrec] at h; cases h
      | ok rest =>
        rw [hrec] at h
        cases h
        rcases List.mem_cons.mp hfi with hfi | hfi
        · exact ⟨nm, md, hfi⟩
        · exact ih hrec fi hfi

theorem countP_not_add (fs : List FileInfo) :
    fs.countP (fun f => !f.is_dir) + fs.countP (fun f => f.is_dir) = fs.length := by
  induction fs with
  | nil => rfl
  | cons f t ih =>
    simp only [List.countP_cons, List.length_cons]
    cases h : f.is_dir <;> simp <;> omega

/-! ## Claims -/

/-- Claim C5: for every entry sequence given to the Builder, the built
summary satisfies `counts.total == counts.files + counts.dirs` and
`counts.hidden <= counts.total`; `hidden` counts entries of either kind
whose `is_hidden` flag is set, and for collected entries `is_hidden` is
exactly "the name starts with `.`". -/
theorem c5_counts_invariant (path : String) (fs : List FileInfo) :
    ((build_summary path fs).counts.total_entries =
      (build_summary path fs).counts.files + (build_summary path fs).counts.dirs) ∧
    ((build_summary path fs).counts.hidden ≤
      (build_summary path fs).counts.total_entries) ∧
    ((build_summary path fs).counts.hidden =
      fs.countP fun f => f.is_hidden) ∧
    (∀ (listing : Except IoErr (List RawItem)) (collected : List FileInfo),
      collect_dir listing = .ok collected →
      ∀ fi ∈ collected, fi.is_hidden = strStartsWith fi.name ".") := by
  rw [build_summary_counts]
  refine ⟨?_, ?_, rfl, ?_⟩
  · exact (countP_not_add fs).symm
  · simpa using List.countP_le_length (fun f : FileInfo => f.is_hidden)
  · intro listing collected h fi hfi
    match listing with
    | .error e => simp [collect_dir] at h
    | .ok items =>
      simp only [collect_dir] at h
      obtain ⟨nm, md, rfl⟩ := collectLoop_ok_mem h fi hfi
      rfl

/-- Witness for C5 at a concrete input: a hidden file `.env` collected from
a one-entry listing. -/
theorem c5_witness :
    FileInfo.is_hidden
        { name := ".env", is_dir := false, extension := none, size := some 0,
          modified := none, is_hidden := true } =
      strStartsWith
        (FileInfo.name
          { name := ".env", is_dir := false, extension := none, size := some 0,
            modified := none, is_hidden := true }) "." :=
  (c5_counts_invariant "p" []).2.2.2
    (.ok [.ok (".env", .ok { is_dir := false, is_file := true, len := 0, modified := none })])
    [{ name := ".env", is_dir := false, extension := none, size := some 0,
       modified := none, is_hidden := true }]
    rfl
    _ (List.mem_singleton.mpr rfl)

/-- Claim C7: `has_python` is true exactly when some file's lower-cased name
equals `"pyproject.toml"` or `"requirement.txt"` (singular); in
particular a file named `requirements.txt` does not set the flag. -/
theorem c7_has_python (path : String) (fs : List FileInfo) :
    ((build_summary path fs).notable_files.has_python = true ↔
      ∃ f ∈ fs, f.is_dir = false ∧
        (strLower f.name = "pyproject.toml" ∨ strLower f.name = "requirement.txt")) ∧
    (build_summary "p"
        [{ name := "requirements.txt", is_dir := false, extension := some "txt",
           size := some 4, modified := none,
           is_hidden := false }]).notable_files.has_python = false := by
  constructor
  · rw [build_summary_has_python, List.any_eq_true]
    simp only [pythonFlagOf, Bool.and_eq_true, Bool.not_eq_true',
      Bool.or_eq_true, beq_iff_eq]
  · decide

/-- Claim C10: `has_git` and `has_ci` are set exactly by directories named
`".git"` and `".github"` respectively, compared case-sensitively; a file
of either name, or a directory named `".GitHub"`, sets neither flag. -/
theorem c10_git_ci_flags (path : String) (fs : List FileInfo) :
    ((build_summary path fs).notable_files.has_git = true ↔
      ∃ f ∈ fs, f.is_dir = true ∧ f.name = ".git") ∧
    ((build_summary path fs).notable_files.has_ci = true ↔
      ∃ f ∈ fs, f.is_dir = true ∧ f.name = ".github") ∧
    (build_summary "p"
      [{ name := ".git", is_dir := false, extension := none, size := some 0,
         modified := none, is_hidden := true }]).notable_files.has_git = false ∧
    (build_summary "p"
      [{ name := ".github", is_dir := false, extension := none, size := some 0,
         modified := none, is_hidden := true }]).notable_files.has_ci = false ∧
    (build_summary "p"
      [{ name := ".GitHub", is_dir := true, extension := none, size := none,
         modified := none, is_hidden := true }]).notable_files.has_git = false ∧
    (build_summary "p"
      [{ name := ".GitHub", is_dir := true, extension := none, size := none,
         modified := none, is_hidden := true }]).notable_files.has_ci = false := by
  refine ⟨?_, ?_, by decide, by decide, by decide, by decide⟩
  · rw [build_summary_has_git, List.any_eq_true]
    simp only [gitFlagOf, Bool.and_eq_true, beq_iff_eq]
  · rw [build_summary_has_ci, List.any_eq_true]
    simp only [ciFlagOf, Bool.and_eq_true, beq_iff_eq]

/-- Claim C9: suspicious-file matching is case-insensitive (the rules are
tested on the lower-cased name) but each appended element is the original
file name with its casing preserved; concretely, `SERVER.LOG` is flagged
and listed as `SERVER.LOG`. -/
theorem c9_suspicious_casing (path : String) (fs : List FileInfo) :
    (∀ nm ∈ (build_summary path fs).suspicious,
      ∃ f ∈ fs, f.is_dir = false ∧ nm = f.name ∧
        (ruleA (strLower f.name) = true ∨ ruleB (strLower f.name) = true)) ∧
    (∀ f ∈ fs, f.is_dir = false →
      (ruleA (strLower f.name) = true ∨ ruleB (strLower f.name) = true) →
      f.name ∈ (build_summary path fs).suspicious) ∧
    (build_summary "p"
        [{ name := "SERVER.LOG", is_dir := false, extension := some "LOG",
           size := some 3, modified := none, is_hidden := false }]).suspicious
      = ["SERVER.LOG"] := by
  rw [build_summary_suspicious]
  refine ⟨?_, ?_, by decide⟩
  · intro nm hnm
    obtain ⟨f, hf, hmem⟩ := List.mem_flatMap.mp hnm
    refine ⟨f, hf, ?_⟩
    by_cases hdir : f.is_dir
    · simp [suspOf, hdir] at hmem
    · simp only [suspOf, hdir, if_false, Bool.false_eq_true] at hmem
      simp only [Bool.not_eq_true] at hdir
      refine ⟨hdir, ?_⟩
      rcases List.mem_append.mp hmem with h | h
      · by_cases hA : ruleA (strLower f.name)
        · simp only [hA, if_true, List.mem_singleton] at h
          exact ⟨h, Or.inl hA⟩
        · simp [hA] at h
      · by_cases hB : ruleB (strLower f.name)
        · simp only [hB, if_true, List.mem_singleton] at h
          exact ⟨h, Or.inr hB⟩
        · simp [hB] at h
  · intro f hf hdir hrule
    refine List.mem_flatMap.mpr ⟨f, hf, ?_⟩
    simp only [suspOf, hdir, if_false, Bool.false_eq_true, List.mem_append]
    rcases hrule with hA | hB
    · exact Or.inl (by simp [hA])
    · exact Or.inr (by simp [hB])

/-- Witness for C9 at a concrete input: the upper-case name `SERVER.LOG`
is flagged (its lower-casing ends with `.log`). -/
theorem c9_witness :
    "SERVER.LOG" ∈ (build_summary "p"
      [{ name := "SERVER.LOG", is_dir := false, extension := some "LOG",
         size := some 3, modified := none, is_hidden := false }]).suspicious :=
  (c9_suspicious_casing "p"
      [{ name := "SERVER.LOG", is_dir := false, extension := some "LOG",
         size := some 3, modified := none, is_hidden := false }]).2.1
    _ (List.mem_singleton.mpr rfl) rfl (Or.inr (by decide))

/-- The loop body reads nothing but `name`, `is_dir`, `extension`, `size`
and `is_hidden`: entries agreeing on those produce equal states. -/
theorem stepEntry_congr {f g : FileInfo} (h : agreesExceptModified f g)
    (s : BuildState) : stepEntry s f = stepEntry s g := by
  obtain ⟨h1, h2, h3, h4, h5⟩ := h
  simp only [stepEntry, h1, h2, h3, h4, h5]

/-- Claim C8: the Builder is deterministic — two runs on the same path and
entries give the same summary — and no derived field depends on the
`modified` timestamps: entry sequences that agree except on `modified`
build identical summaries. -/
theorem c8_deterministic (path : String) (fs fs' : List FileInfo)
    (h : List.Forall₂ agreesExceptModified fs fs') :
    build_summary path fs = build_summary path fs ∧
    build_summary path fs = build_summary path fs' := by
  refine ⟨rfl, ?_⟩
  have hfold : ∀ s : BuildState, fs.foldl stepEntry s = fs'.foldl stepEntry s := by
    induction h with
    | nil => intro s; rfl
    | cons hfg htail ih =>
      intro s
      simp only [List.foldl_cons, stepEntry_congr hfg, ih]
  simp only [build_summary, hfold]

/-- Witness for C8 at a concrete input: two one-entry sequences differing
only in the `modified` timestamp build the same summary. -/
theorem c8_witness :
    build_summary "p"
        [{ name := "a.txt", is_dir := false, extension := some "txt",
           size := some 1, modified := some 42, is_hidden := false }] =
      build_summary "p"
        [{ name := "a.txt", is_dir := false, extension := some "txt",
           size := some 1, modified := none, is_hidden := false }] :=
  (c8_deterministic "p" _ _
    (List.Forall₂.cons ⟨rfl, rfl, rfl, rfl, rfl⟩ List.Forall₂.nil)).2

/-- Claim C6: a failure to read the directory, or of any single child's
per-entry or metadata read, makes the Collector return an error (nothing
is skipped), and on any collection error the Builder is never invoked —
`main`'s pipeline yields the error and no summary. -/
theorem c6_fail_fast :
    (∀ (path : String) (e : IoErr), main_core path (.error e) = .error e) ∧
    (∀ (items : List RawItem) (nm : String) (e : IoErr),
      (.ok (nm, .error e) : RawItem) ∈ items →
      ∃ e', collectLoop items = .error e') ∧
    (∀ (items : List RawItem) (e : IoErr),
      (.error e : RawItem) ∈ items → ∃ e', collectLoop items = .error e') ∧
    (∀ (path : String) (listing : Except IoErr (List RawItem)) (e : IoErr),
      collect_dir listing = .error e → main_core path listing = .error e) := by
  refine ⟨fun _ _ => rfl, ?_, ?_, ?_⟩
  · intro items nm e hmem
    induction items with
    | nil => cases hmem
    | cons it t ih =>
      rcases List.mem_cons.mp hmem with h | h
      · subst h
        exact ⟨e, rfl⟩
      · match it with
        | .error e'' => exact ⟨e'', rfl⟩
        | .ok (nm', .error e'') => exact ⟨e'', rfl⟩
        | .ok (nm', .ok md) =>
          obtain ⟨e', he'⟩ := ih h
          exact ⟨e', by rw [collectLoop, he']⟩
  · intro items e hmem
    induction items with
    | nil => cases hmem
    | cons it t ih =>
      rcases List.mem_cons.mp hmem with h | h
      · subst h
        exact ⟨e, rfl⟩
      · match it with
        | .error e'' => exact ⟨e'', rfl⟩
        | .ok (nm', .error e'') => exact ⟨e'', rfl⟩
        | .ok (nm', .ok md) =>
          obtain ⟨e', he'⟩ := ih h
          exact ⟨e', by rw [collectLoop, he']⟩
  · intro path listing e h
    simp [main_core, h]

/-- Witness for C6 at concrete inputs: one child whose metadata read is
denied aborts the collection, and the pipeline then produces that error
and no summary. -/
theorem c6_witness :
    (∃ e', collectLoop [.ok ("locked.bin", .error "permission denied")] = .error e') ∧
    main_core "p" (.error "not a directory") = .error "not a directory" :=
  ⟨c6_fail_fast.2.1 [.ok ("locked.bin", .error "permission denied")]
      "locked.bin" "permission denied" (List.mem_singleton.mpr rfl),
    c6_fail_fast.1 "p" "not a directory"⟩

/-! ## The double-append behaviour of the suspicious-file rules (C1) -/

theorem count_flatMap_suspOf (fs : List FileInfo) (nm : String) :
    (fs.flatMap suspOf).count nm =
      (fs.map fun f => (suspOf f).count nm).sum := by
  induction fs with
  | nil => rfl
  | cons f t ih => simp [List.flatMap_cons, List.count_append, ih]

theorem count_suspOf_ne {f : FileInfo} {nm : String} (h : f.name ≠ nm) :
    (suspOf f).count nm = 0 := by
  rw [List.count_eq_zero]
  intro hmem
  by_cases hdir : f.is_dir
  · simp [suspOf, hdir] at hmem
  · simp only [suspOf, hdir, if_false, Bool.false_eq_true, List.mem_append] at hmem
    rcases hmem with hm | hm <;>
      [skip; skip] <;>
      · split at hm
        · exact h (List.mem_singleton.mp hm).symm
        · cases hm

theorem count_suspOf_self {f : FileInfo} (hdir : f.is_dir = false)
    (hA : ruleA (strLower f.name) = true) (hB : ruleB (strLower f.name) = true) :
    (suspOf f).count f.name = 2 := by
  simp [suspOf, hdir, hA, hB, List.count_append, List.count_singleton]

theorem sum_count_suspOf {f : FileInfo} (hdir : f.is_dir = false)
    (hA : ruleA (strLower f.name) = true) (hB : ruleB (strLower f.name) = true) :
    ∀ fs : List FileInfo, f ∈ fs →
    fs.countP (fun g => g.name == f.name) = 1 →
    (fs.map fun g => (suspOf g).count f.name).sum = 2 := by
  intro fs
  induction fs with
  | nil => intro h; cases h
  | cons g t ih =>
    intro hmem huniq
    rw [List.map_cons, List.sum_cons]
    rw [List.countP_cons] at huniq
    by_cases hg : g.name = f.name
    · simp only [hg, beq_self_eq_true, if_true] at huniq
      have ht0 : t.countP (fun g' => g'.name == f.name) = 0 := by omega
      have hfg : f = g := by
        rcases List.mem_cons.mp hmem with h | h
        · exact h
        · exfalso
          have : 0 < t.countP (fun g' => g'.name == f.name) :=
            List.countP_pos_iff.mpr ⟨f, h, by simp⟩
          omega
      subst hfg
      have hsum0 : (t.map fun g' => (suspOf g').count f.name).sum = 0 := by
        apply List.sum_eq_zero
        intro x hx
        obtain ⟨g', hg', rfl⟩ := List.mem_map.mp hx
        have hne : g'.name ≠ f.name := by
          intro heq
          have : 0 < t.countP (fun g'' => g''.name == f.name) :=
            List.countP_pos_iff.mpr ⟨g', hg', by simp [heq]⟩
          omega
        exact count_suspOf_ne hne
      rw [hsum0, count_suspOf_self hdir hA hB]
    · have hf : f ∈ t := by
        rcases List.mem_cons.mp hmem with h | h
        · exact absurd (congrArg FileInfo.name h.symm) hg
        · exact h
      have hcond : ¬ ((g.name == f.name) = true) := by
        simp only [beq_iff_eq]
        exact hg
      rw [if_neg hcond, Nat.add_zero] at huniq
      rw [count_suspOf_ne hg, ih hf huniq]

/-- Claim C1 counterexample: the file `secrets.env.pem.log` does not
match rule A (its lower-cased name ends with `".log"`, not `".pem"`, is
not `".env"`, and does not contain `"id_rsa"`), so it is appended once,
not twice: the claim's "in particular" scenario fails on the code. -/
theorem c1_counterexample :
    (build_summary "p"
        [{ name := "secrets.env.pem.log", is_dir := false, extension := some "log",
           size := some 10, modified := none, is_hidden := false }]).suspicious
      = ["secrets.env.pem.log"] ∧
    ruleA (strLower "secrets.env.pem.log") = false ∧
    ¬ ((build_summary "p"
        [{ name := "secrets.env.pem.log", is_dir := false, extension := some "log",
           size := some 10, modified := none, is_hidden := false }]).suspicious.count
        "secrets.env.pem.log" = 2) := by
  refine ⟨by decide, by decide, ?_⟩
  intro h
  rw [show (build_summary "p"
      [{ name := "secrets.env.pem.log", is_dir := false, extension := some "log",
         size := some 10, modified := none, is_hidden := false }]).suspicious
      = ["secrets.env.pem.log"] from by decide] at h
  simp [List.count_singleton] at h

/-- Claim C1 (amended): a file whose lower-cased name matches both rule A
and rule B is appended once per matching rule; when it is the only entry
with its name it appears exactly twice in `suspicious`.  (The spec's
example `secrets.env.pem.log` matches only rule B and appears once —
`id_rsa.log` is a name that does match both.) -/
theorem c1_double_append (path : String) (fs : List FileInfo) (f : FileInfo)
    (hmem : f ∈ fs)
    (huniq : fs.countP (fun g => g.name == f.name) = 1)
    (hdir : f.is_dir = false)
    (hA : ruleA (strLower f.name) = true)
    (hB : ruleB (strLower f.name) = true) :
    (build_summary path fs).suspicious.count f.name = 2 := by
  rw [build_summary_suspicious, count_flatMap_suspOf]
  exact sum_count_suspOf hdir hA hB fs hmem huniq

/-- Witness for the amended C1 at a concrete input: `id_rsa.log` matches
rule A (contains `id_rsa`) and rule B (ends with `.log`) and appears
twice. -/
theorem c1_witness :
    (build_summary "p"
        [{ name := "id_rsa.log", is_dir := false, extension := some "log",
           size := some 7, modified := none, is_hidden := false }]).suspicious.count
      "id_rsa.log" = 2 :=
  c1_double_append "p"
    [{ name := "id_rsa.log", is_dir := false, extension := some "log",
       size := some 7, modified := none, is_hidden := false }]
    { name := "id_rsa.log", is_dir := false, extension := some "log",
      size := some 7, modified := none, is_hidden := false }
    (List.mem_singleton.mpr rfl) (by decide) rfl (by decide) (by decide)

/-! ## The top-5-by-size selection (C2) -/

theorem sortLe_trans (a b c : SizeEntry) :
    sortLe a b → sortLe b c → sortLe a c := by
  simp only [sortLe, decide_eq_true_eq]
  omega

theorem sortLe_total (a b : SizeEntry) : sortLe a b || sortLe b a := by
  simp only [sortLe, Bool.or_eq_true, decide_eq_true_eq]
  omega

theorem length_sizeCands (fs : List FileInfo) :
    (fs.filterMap sizeCandOf).length =
      fs.countP (fun f => !f.is_dir && f.size.isSome) := by
  induction fs with
  | nil => rfl
  | cons f t ih =>
    rw [List.filterMap_cons, List.countP_cons]
    cases hdir : f.is_dir <;> cases hsz : f.size <;>
      simp [sizeCandOf, hdir, hsz, ih]

/-- Claim C2: `top_file_by_size` has length `min(5, number of files with a
known size)`, is sorted by `bytes` descending, every entry names a file of
the input with that size, the underlying sort is stable (candidates with
equal `bytes` keep their scan order), and the result is exactly the first
5 of the stably descending-sorted candidate list. -/
theorem c2_top_file_by_size (path : String) (fs : List FileInfo) :
    ((build_summary path fs).top_file_by_size.length =
      min 5 (fs.countP (fun f => !f.is_dir && f.size.isSome))) ∧
    (build_summary path fs).top_file_by_size.Pairwise
      (fun a b => b.bytes ≤ a.bytes) ∧
    (∀ e ∈ (build_summary path fs).top_file_by_size,
      ∃ f ∈ fs, f.is_dir = false ∧ f.name = e.name ∧ f.size = some e.bytes) ∧
    (∀ a b : SizeEntry, a.bytes = b.bytes →
      [a, b].Sublist (fs.filterMap sizeCandOf) →
      [a, b].Sublist ((fs.filterMap sizeCandOf).mergeSort sortLe)) ∧
    (build_summary path fs).top_file_by_size =
      ((fs.filterMap sizeCandOf).mergeSort sortLe).take 5 := by
  rw [build_summary_top]
  refine ⟨?_, ?_, ?_, ?_, rfl⟩
  · rw [List.length_take, List.length_mergeSort, length_sizeCands]
  · have hs : ((fs.filterMap sizeCandOf).mergeSort sortLe).Pairwise
        (fun a b => sortLe a b = true) :=
      List.sorted_mergeSort sortLe_trans sortLe_total _
    have := hs.sublist (List.take_sublist 5 _)
    exact this.imp fun h => by
      simpa only [sortLe, decide_eq_true_eq] using h
  · intro e he
    have hmem : e ∈ (fs.filterMap sizeCandOf).mergeSort sortLe :=
      (List.take_sublist 5 _).mem he
    rw [List.mem_mergeSort] at hmem
    obtain ⟨f, hf, hsome⟩ := List.mem_filterMap.mp hmem
    refine ⟨f, hf, ?_⟩
    by_cases hdir : f.is_dir
    · simp [sizeCandOf, hdir] at hsome
    · simp only [Bool.not_eq_true] at hdir
      rw [sizeCandOf, hdir] at hsome
      simp only [Bool.false_eq_true, if_false] at hsome
      cases hsz : f.size with
      | none =>
        rw [hsz] at hsome
        cases hsome
      | some sz =>
        rw [hsz, Option.map_some'] at hsome
        cases hsome
        exact ⟨hdir, rfl, rfl⟩
  · intro a b hab hsub
    exact List.pair_sublist_mergeSort sortLe_trans sortLe_total
      (by simp [sortLe, hab]) hsub

/-- Witness for C2 at a concrete input: two files of sizes 1 and 2 plus a
directory produce a descending two-element top list. -/
theorem c2_witness :
    (build_summary "p"
        [{ name := "a.txt", is_dir := false, extension := some "txt",
           size := some 1, modified := none, is_hidden := false },
         { name := "b.txt", is_dir := false, extension := some "txt",
           size := some 2, modified := none, is_hidden := false },
         { name := "sub", is_dir := true, extension := none,
           size := none, modified := none, is_hidden := false }]).top_file_by_size.length
      = min 5 2 :=
  (c2_top_file_by_size "p" _).1

/-! ## The ordered `language_hints` table (C4) -/

theorem mem_insertCount : ∀ (m : List (String × Nat)) (k : String)
    (p : String × Nat), p ∈ insertCount m k → p.1 = k ∨ p ∈ m := by
  intro m k
  induction m with
  | nil =>
    intro p hp
    rw [insertCount] at hp
    rw [List.mem_singleton.mp hp]
    exact Or.inl rfl
  | cons kv t ih =>
    obtain ⟨k', v⟩ := kv
    intro p hp
    rw [insertCount] at hp
    split at hp
    · rcases List.mem_cons.mp hp with h | h
      · rw [h]; exact Or.inl rfl
      · exact Or.inr h
    · split at hp
      · rename_i heq
        rcases List.mem_cons.mp hp with h | h
        · rw [h]; exact Or.inl heq.symm
        · exact Or.inr (List.mem_cons_of_mem _ h)
      · rcases List.mem_cons.mp hp with h | h
        · rw [h]; exact Or.inr (List.mem_cons_self _ _)
        · rcases ih p h with h1 | h1
          · exact Or.inl h1
          · exact Or.inr (List.mem_cons_of_mem _ h1)

theorem insertCount_pairwise : ∀ {m : List (String × Nat)} (k : String),
    m.Pairwise (fun a b => a.1 < b.1) →
    (insertCount m k).Pairwise (fun a b => a.1 < b.1) := by
  intro m k
  induction m with
  | nil =>
    intro _
    rw [insertCount]
    exact List.pairwise_singleton _ _
  | cons kv t ih =>
    obtain ⟨k', v⟩ := kv
    intro hp
    rw [List.pairwise_cons] at hp
    obtain ⟨hall, ht⟩ := hp
    rw [insertCount]
    split
    · rename_i hlt
      refine List.Pairwise.cons ?_ (List.Pairwise.cons hall ht)
      intro x hx
      rcases List.mem_cons.mp hx with h | h
      · rw [h]; exact (strLt_iff k k').mp hlt
      · exact lt_trans ((strLt_iff k k').mp hlt) (hall x h)
    · split
      · exact List.Pairwise.cons hall ht
      · rename_i hlt hne
        refine List.Pairwise.cons ?_ (ih ht)
        intro x hx
        rcases mem_insertCount t k x hx with h | h
        · rw [h]
          exact lt_of_strLt_false (Bool.not_eq_true _ ▸ eq_false_of_ne_true hlt) hne
        · exact hall x h

theorem insertCount_pos : ∀ {m : List (String × Nat)} (k : String),
    (∀ p ∈ m, 0 < p.2) → ∀ p ∈ insertCount m k, 0 < p.2 := by
  intro m k
  induction m with
  | nil =>
    intro _ p hp
    rw [insertCount] at hp
    rw [List.mem_singleton.mp hp]
    exact Nat.zero_lt_one
  | cons kv t ih =>
    obtain ⟨k', v⟩ := kv
    intro hpos p hp
    rw [insertCount] at hp
    split at hp
    · rcases List.mem_cons.mp hp with h | h
      · rw [h]; exact Nat.zero_lt_one
      · exact hpos p h
    · split at hp
      · rcases List.mem_cons.mp hp with h | h
        · rw [h]; exact Nat.succ_pos v
        · exact hpos p (List.mem_cons_of_mem _ h)
      · rcases List.mem_cons.mp hp with h | h
        · rw [h]; exact hpos _ (List.mem_cons_self _ _)
        · exact ih (fun q hq => hpos q (List.mem_cons_of_mem _ hq)) p h

theorem getCount_eq_zero : ∀ {m : List (String × Nat)} {k : String},
    (∀ p ∈ m, p.1 ≠ k) → getCount m k = 0 := by
  intro m k
  induction m with
  | nil => intro _; rfl
  | cons kv t ih =>
    obtain ⟨k', v⟩ := kv
    intro h
    rw [getCount]
    rw [if_neg fun heq => (h (k', v) (List.mem_cons_self _ _)) heq.symm]
    exact ih fun p hp => h p (List.mem_cons_of_mem _ hp)

theorem getCount_insertCount_self : ∀ {m : List (String × Nat)} (k : String),
    m.Pairwise (fun a b => a.1 < b.1) →
    getCount (insertCount m k) k = getCount m k + 1 := by
  intro m k
  induction m with
  | nil =>
    intro _
    simp [insertCount, getCount]
  | cons kv t ih =>
    obtain ⟨k', v⟩ := kv
    intro hp
    rw [List.pairwise_cons] at hp
    obtain ⟨hall, ht⟩ := hp
    rw [insertCount]
    split
    · rename_i hlt
      have hkk' : k ≠ k' := ne_of_lt ((strLt_iff k k').mp hlt)
      rw [getCount, if_pos rfl, getCount, if_neg hkk']
      rw [getCount_eq_zero fun p hp =>
        ne_of_gt (lt_trans ((strLt_iff k k').mp hlt) (hall p hp))]
    · split
      · rename_i heq
        rw [getCount, if_pos heq, getCount, if_pos heq]
      · rename_i hlt hne
        rw [getCount, if_neg hne, getCount, if_neg hne]
        exact ih ht

theorem getCount_insertCount_ne : ∀ {m : List (String × Nat)} {k k'' : String},
    k'' ≠ k → getCount (insertCount m k) k'' = getCount m k'' := by
  intro m k k'' hne
  induction m with
  | nil =>
    simp [insertCount, getCount, hne]
  | cons kv t ih =>
    obtain ⟨k', v⟩ := kv
    rw [insertCount]
    split
    · rw [getCount, if_neg hne]
    · split
      · rename_i heq
        have hne' : k'' ≠ k' := fun h => hne (h.trans heq.symm)
        rw [getCount, getCount, if_neg hne', if_neg hne']
      · rw [getCount, getCount]
        split
        · rfl
        · exact ih

theorem foldl_insertCount_pairwise : ∀ (ks : List String)
    (m : List (String × Nat)), m.Pairwise (fun a b => a.1 < b.1) →
    (ks.foldl insertCount m).Pairwise (fun a b => a.1 < b.1) := by
  intro ks
  induction ks with
  | nil => intro m hm; exact hm
  | cons k t ih =>
    intro m hm
    exact ih _ (insertCount_pairwise k hm)

theorem foldl_insertCount_pos : ∀ (ks : List String)
    (m : List (String × Nat)), (∀ p ∈ m, 0 < p.2) →
    ∀ p ∈ ks.foldl insertCount m, 0 < p.2 := by
  intro ks
  induction ks with
  | nil => intro m hm; exact hm
  | cons k t ih =>
    intro m hm
    exact ih _ (insertCount_pos k hm)

theorem getCount_foldl_insertCount : ∀ (ks : List String)
    (m : List (String × Nat)) (k : String),
    m.Pairwise (fun a b => a.1 < b.1) →
    getCount (ks.foldl insertCount m) k = getCount m k + ks.count k := by
  intro ks
  induction ks with
  | nil => intro m k _; simp
  | cons k₀ t ih =>
    intro m k hm
    rw [List.foldl_cons, ih _ k (insertCount_pairwise k₀ hm), List.count_cons]
    by_cases hk : k = k₀
    · subst hk
      rw [getCount_insertCount_self k hm]
      simp
      omega
    · rw [getCount_insertCount_ne hk]
      have : ¬ ((k₀ == k) = true) := by
        simp only [beq_iff_eq]
        exact fun h => hk h.symm
      simp [this]

theorem mem_iff_getCount : ∀ {m : List (String × Nat)},
    m.Pairwise (fun a b => a.1 < b.1) → (∀ p ∈ m, 0 < p.2) →
    ∀ (k : String) (v : Nat), ((k, v) ∈ m ↔ (getCount m k = v ∧ 0 < v)) := by
  intro m
  induction m with
  | nil =>
    intro _ _ k v
    constructor
    · intro h; cases h
    · intro ⟨h0, hpos⟩
      rw [getCount] at h0
      omega
  | cons kv t ih =>
    obtain ⟨k', v'⟩ := kv
    intro hp hpos k v
    rw [List.pairwise_cons] at hp
    obtain ⟨hall, ht⟩ := hp
    by_cases hk : k = k'
    · subst hk
      rw [getCount, if_pos rfl]
      constructor
      · intro h
        rcases List.mem_cons.mp h with h | h
        · cases h
          exact ⟨rfl, hpos _ (List.mem_cons_self _ _)⟩
        · exact absurd (hall _ h) (lt_irrefl _)
      · intro ⟨hv, hvpos⟩
        rw [hv]
        exact List.mem_cons_self _ _
    · rw [getCount, if_neg hk,
        ← ih ht (fun p hp => hpos p (List.mem_cons_of_mem _ hp)) k v]
      constructor
      · intro h
        rcases List.mem_cons.mp h with h | h
        · exact absurd (congrArg Prod.fst h) hk
        · exact h
      · intro h
        exact List.mem_cons_of_mem _ h

theorem sumVals_insertCount : ∀ (m : List (String × Nat)) (k : String),
    sumVals (insertCount m k) = sumVals m + 1 := by
  intro m k
  induction m with
  | nil => rfl
  | cons kv t ih =>
    obtain ⟨k', v⟩ := kv
    rw [insertCount]
    split
    · simp [sumVals]
      omega
    · split
      · simp [sumVals]
        omega
      · simp only [sumVals, List.map_cons, List.sum_cons] at ih ⊢
        omega

theorem sumVals_foldl_insertCount : ∀ (ks : List String)
    (m : List (String × Nat)),
    sumVals (ks.foldl insertCount m) = sumVals m + ks.length := by
  intro ks
  induction ks with
  | nil => intro m; simp
  | cons k t ih =>
    intro m
    rw [List.foldl_cons, ih, sumVals_insertCount, List.length_cons]
    omega

theorem length_extKeys_le (fs : List FileInfo) :
    (fs.filterMap extKeyOf).length ≤ fs.countP (fun f => !f.is_dir) := by
  induction fs with
  | nil => simp
  | cons f t ih =>
    rw [List.filterMap_cons, List.countP_cons]
    cases hdir : f.is_dir
    · cases hext : extKeyOf f <;> simp [hdir] <;> omega
    · have hnone : extKeyOf f = none := by simp [extKeyOf, hdir]
      simp [hnone, hdir]
      omega

/-- Claim C4: `language_hints` maps exactly the distinct lower-cased
extensions of files that have an extension to their occurrence counts
(membership of `(k, v)` is equivalent to `v` being the positive number of
such files with key `k`), its values sum to at most `counts.files`, and
the table is strictly sorted by key, so its iteration order is the
deterministic key order, not insertion order. -/
theorem c4_language_hints (path : String) (fs : List FileInfo) :
    (∀ (k : String) (v : Nat),
      ((k, v) ∈ (build_summary path fs).language_hints ↔
        ((fs.filterMap extKeyOf).count k = v ∧ 0 < v))) ∧
    sumVals (build_summary path fs).language_hints ≤
      (build_summary path fs).counts.files ∧
    (build_summary path fs).language_hints.Pairwise (fun a b => a.1 < b.1) := by
  rw [build_summary_language_hints, build_summary_counts]
  have hpair : ((fs.filterMap extKeyOf).foldl insertCount []).Pairwise
      (fun a b => a.1 < b.1) :=
    foldl_insertCount_pairwise _ [] List.Pairwise.nil
  have hpos : ∀ p ∈ (fs.filterMap extKeyOf).foldl insertCount [], 0 < p.2 :=
    foldl_insertCount_pos _ [] (by intro p hp; cases hp)
  refine ⟨?_, ?_, hpair⟩
  · intro k v
    rw [mem_iff_getCount hpair hpos k v,
      getCount_foldl_insertCount _ [] k List.Pairwise.nil]
    rw [show getCount [] k = 0 from rfl]
    simp
  · rw [sumVals_foldl_insertCount]
    have h0 : sumVals ([] : List (String × Nat)) = 0 := rfl
    rw [h0]
    simpa using length_extKeys_le fs

/-! ## Extensions of collected entries (C3) -/

theorem lastDotPos_eq_none {l : List Char} (h : '.' ∉ l) :
    lastDotPos l = none := by
  induction l with
  | nil => rfl
  | cons c t ih =>
    rw [lastDotPos, ih fun hm => h (List.mem_cons_of_mem c hm)]
    exact if_neg fun heq => h (by rw [← heq]; exact List.mem_cons_self c t)

theorem rustExtension_eq_none {name : String}
    (h : '.' ∉ name.data.drop 1) : rustExtension name = none := by
  simp only [rustExtension, lastDotPos_eq_none h]
  split <;> rfl

/-- Claim C3 counterexample: `collect_dir` computes the extension from the
name for *every* entry, directories included — a collected directory named
`foo.bar` carries extension `some "bar"`, so "the extension field is
absent for directories" fails on the code. -/
theorem c3_counterexample :
    collect_dir (.ok [.ok ("foo.bar",
        .ok { is_dir := true, is_file := false, len := 0, modified := none })])
      = .ok [{ name := "foo.bar", is_dir := true, extension := some "bar",
               size := none, modified := none, is_hidden := false }] ∧
    ({ name := "foo.bar", is_dir := true, extension := some "bar",
       size := none, modified := none, is_hidden := false } : FileInfo).is_dir
      = true ∧
    ¬ (({ name := "foo.bar", is_dir := true, extension := some "bar",
          size := none, modified := none, is_hidden := false } : FileInfo).extension
        = none) :=
  ⟨rfl, rfl, fun h => by cases h⟩

/-- Claim C3 (amended): for every collected `DirectoryEntry` — of either
kind, since the Collector computes the extension from the name before
branching on the file type — the extension field is absent when the name
has no `.` past its first character; in particular a name whose only `.`
is its first character (e.g. `.env`) yields no extension. -/
theorem c3_no_dot_no_extension (listing : Except IoErr (List RawItem))
    (fis : List FileInfo) (h : collect_dir listing = .ok fis) :
    ∀ fi ∈ fis, '.' ∉ fi.name.data.drop 1 → fi.extension = none := by
  match listing with
  | .error e => simp [collect_dir] at h
  | .ok items =>
    simp only [collect_dir] at h
    intro fi hfi hdot
    obtain ⟨nm, md, rfl⟩ := collectLoop_ok_mem h fi hfi
    exact rustExtension_eq_none hdot

/-- Witness for the amended C3 at a concrete input: the collected file
`.env` (whose only dot is the leading one) has no extension. -/
theorem c3_witness :
    FileInfo.extension
        { name := ".env", is_dir := false, extension := none, size := some 0,
          modified := none, is_hidden := true }
      = none :=
  c3_no_dot_no_extension
    (.ok [.ok (".env",
      .ok { is_dir := false, is_file := true, len := 0, modified := none })])
    [{ name := ".env", is_dir := false, extension := none, size := some 0,
       modified := none, is_hidden := true }]
    rfl
    _ (List.mem_singleton.mpr rfl) (by decide)

end Lsai
